import Mathlib

/-!
Verification of the yndx-xxlsort external-memory sort engine.

The development shallowly embeds the core of the implementation:
byte-wise key comparison (memcmp), the record data model, the
sort-element prefix comparator, the run-former's bidirectional fill
loop, the k-way heap merge, the orchestrator's auto-unlink protocol,
the AVAILABLE_MEM environment parser, the buffered writer, and the
record-stream parser.
-/

namespace XxlSort

open List

/-! ## Byte-wise comparison (model of memcmp over byte sequences)

memcmp over two equal-length byte arrays compares unsigned bytes left
to right; the model compares lists of naturals lexicographically,
returning an Ordering (the sign of memcmp's result).
-/

def byteCmp : List Nat → List Nat → Ordering
  | [], [] => .eq
  | [], _ :: _ => .lt
  | _ :: _, [] => .gt
  | a :: as, b :: bs =>
    if a < b then .lt
    else if b < a then .gt
    else byteCmp as bs

theorem byteCmp_self (a : List Nat) : byteCmp a a = .eq := by
  induction a with
  | nil => rfl
  | cons x xs ih => simp [byteCmp, ih]

theorem byteCmp_eq_iff : ∀ (a b : List Nat), byteCmp a b = .eq ↔ a = b
  | [], [] => by simp [byteCmp]
  | [], _ :: _ => by simp [byteCmp]
  | _ :: _, [] => by simp [byteCmp]
  | a :: as, b :: bs => by
    simp only [byteCmp]
    by_cases h1 : a < b
    · simp [h1, Nat.ne_of_lt h1]
    · by_cases h2 : b < a
      · simp [h1, h2, (Nat.ne_of_lt h2).symm]
      · have hab : a = b := Nat.le_antisymm (Nat.le_of_not_lt h2) (Nat.le_of_not_lt h1)
        simp [h1, h2, hab, byteCmp_eq_iff as bs]

theorem byteCmp_swap : ∀ (a b : List Nat), byteCmp b a = (byteCmp a b).swap
  | [], [] => rfl
  | [], _ :: _ => rfl
  | _ :: _, [] => rfl
  | a :: as, b :: bs => by
    simp only [byteCmp]
    by_cases h1 : a < b
    · simp [h1, Nat.not_lt_of_lt h1, Ordering.swap]
    · by_cases h2 : b < a
      · simp [h1, h2, Ordering.swap]
      · simp [h1, h2, byteCmp_swap as bs]

theorem byteCmp_lt_trans :
    ∀ {a b c : List Nat}, byteCmp a b = .lt → byteCmp b c = .lt → byteCmp a c = .lt := by
  intro a
  induction a with
  | nil =>
    intro b c hab hbc
    cases b with
    | nil => simpa [byteCmp] using hbc
    | cons y ys =>
      cases c with
      | nil => simp [byteCmp] at hbc
      | cons z zs => rfl
  | cons x xs ih =>
    intro b c hab hbc
    cases b with
    | nil => simp [byteCmp] at hab
    | cons y ys =>
      cases c with
      | nil => simp [byteCmp] at hbc
      | cons z zs =>
        simp only [byteCmp] at hab hbc ⊢
        by_cases hxy : x < y
        · by_cases hyz : y < z
          · simp [Nat.lt_trans hxy hyz]
          · by_cases hzy : z < y
            · simp [hyz, hzy] at hbc
            · have : y = z := Nat.le_antisymm (Nat.le_of_not_lt hzy) (Nat.le_of_not_lt hyz)
              subst this
              simp [hxy]
        · by_cases hyx : y < x
          · simp [hxy, hyx] at hab
          · have : x = y := Nat.le_antisymm (Nat.le_of_not_lt hyx) (Nat.le_of_not_lt hxy)
            subst this
            simp only [hxy, if_neg, Nat.lt_irrefl, if_false] at hab
            by_cases hyz : x < z
            · simp [hyz]
            · by_cases hzy : z < x
              · simp [hyz, hzy] at hbc
              · have : x = z := Nat.le_antisymm (Nat.le_of_not_lt hzy) (Nat.le_of_not_lt hyz)
                subst this
                simp only [Nat.lt_irrefl, if_false] at hab hbc ⊢
                exact ih hab hbc

/-- `byteCmp a b ≠ .gt`: the non-strict comparison extracted from the
strict one, i.e. memcmp(a, b) ≤ 0. -/
def bytesLe (a b : List Nat) : Prop := byteCmp a b ≠ .gt

instance : DecidableRel bytesLe := fun a b => by
  unfold bytesLe; infer_instance

theorem bytesLe_iff (a b : List Nat) : bytesLe a b ↔ byteCmp a b = .lt ∨ a = b := by
  unfold bytesLe
  cases h : byteCmp a b with
  | lt => simp
  | eq => simpa using (byteCmp_eq_iff a b).mp h
  | gt =>
    simp only [ne_eq, not_true_eq_false, false_iff]
    push_neg
    constructor
    · simp [h]
    · intro he; subst he; rw [byteCmp_self a] at h; exact Ordering.noConfusion h

theorem bytesLe_total (a b : List Nat) : bytesLe a b ∨ bytesLe b a := by
  unfold bytesLe
  rw [byteCmp_swap a b]
  cases byteCmp a b <;> simp [Ordering.swap]

theorem bytesLe_trans {a b c : List Nat} (hab : bytesLe a b) (hbc : bytesLe b c) :
    bytesLe a c := by
  rcases (bytesLe_iff a b).mp hab with h1 | h1
  · rcases (bytesLe_iff b c).mp hbc with h2 | h2
    · exact (bytesLe_iff a c).mpr (Or.inl (byteCmp_lt_trans h1 h2))
    · subst h2; exact hab
  · subst h1; exact hbc

/-! ## Record data model

A record in the external on-disk format: a 64-byte key, two opaque
64-bit pass-through fields, a body size, and the body bytes.
-/

structure Record where
  key : List Nat
  flags : Nat
  crc : Nat
  body_size : Nat
  body : List Nat
  deriving DecidableEq, Repr

/-- Record ordering used by the engine: memcmp over the keys. -/
def recLe (a b : Record) : Prop := bytesLe a.key b.key

instance : DecidableRel recLe := fun a b => by
  unfold recLe; infer_instance

instance : IsTotal Record recLe := ⟨fun a b => bytesLe_total a.key b.key⟩

instance : IsTrans Record recLe := ⟨fun _ _ _ h1 h2 => bytesLe_trans h1 h2⟩

theorem recLe_refl (a : Record) : recLe a a := by
  unfold recLe bytesLe
  simp [byteCmp_self]

/-- Comparing two concatenations piecewise when the first pieces have
equal length: memcmp of the concatenations is the comparison of the
first pieces, refined by the comparison of the second pieces on a tie. -/
theorem byteCmp_append :
    ∀ {p q : List Nat}, p.length = q.length → ∀ (s t : List Nat),
      byteCmp (p ++ s) (q ++ t) = (byteCmp p q).then (byteCmp s t)
  | [], [], _, s, t => by simp [byteCmp, Ordering.then]
  | [], _ :: _, h, _, _ => by simp at h
  | _ :: _, [], h, _, _ => by simp at h
  | a :: as, b :: bs, h, s, t => by
    simp only [List.length_cons, Nat.add_right_cancel_iff] at h
    simp only [List.cons_append, byteCmp]
    by_cases h1 : a < b
    · simp [h1, Ordering.then]
    · by_cases h2 : b < a
      · simp [h1, h2, Ordering.then]
      · simp [h1, h2, byteCmp_append h s t]

/-! ## Units and memory budget constants -/

def KiB : Nat := 1024
def MiB : Nat := 1024 * KiB
def GiB : Nat := 1024 * MiB

/-! ## Sort element (C7 in the spec)

A 16-byte cell: a 12-byte key prefix plus a 32-bit offset of the
record relative to the process-wide base pointer.  Addresses are
naturals; the uint32_t store truncates the offset modulo 2^32.
`fetchKey` abstracts dereferencing: it maps the address of a
record_header2 to the 64-byte key stored there.
-/

structure SortElem where
  pfx : List Nat
  offset : Nat
  deriving DecidableEq, Repr

/-- sort_element::init — copy the first 12 key bytes, store the
base-relative record address truncated to 32 bits. -/
def sortElemInit (base addr : Nat) (key : List Nat) : SortElem :=
  { pfx := key.take 12, offset := (addr - base) % 2 ^ 32 }

/-- sort_element::get_header — resolve the stored offset back to an
address relative to the base pointer. -/
def sortElemHeaderAddr (base : Nat) (e : SortElem) : Nat := base + e.offset

/-- Exact-offset resolution: when the record lies within 2^32 bytes
of the base, init followed by get_header returns its address. -/
theorem sortElemHeaderAddr_init (base addr : Nat) (key : List Nat)
    (h1 : base ≤ addr) (h2 : addr - base < 2 ^ 32) :
    sortElemHeaderAddr base (sortElemInit base addr key) = addr := by
  unfold sortElemHeaderAddr sortElemInit
  simp only
  rw [Nat.mod_eq_of_lt h2]
  omega

/-- sort_element::operator< — compare the embedded 12-byte prefixes;
on a tie, follow the offsets and compare the remaining 52 key bytes. -/
def sortElemLt (fetchKey : Nat → List Nat) (base : Nat) (a b : SortElem) : Bool :=
  match byteCmp a.pfx b.pfx with
  | .lt => true
  | .gt => false
  | .eq =>
    decide (byteCmp ((fetchKey (sortElemHeaderAddr base a)).drop 12)
      ((fetchKey (sortElemHeaderAddr base b)).drop 12) = .lt)

/-! ## Large-body deferral threshold (split_and_sort) -/

/-- The deferral threshold chosen by split_and_sort: 1 MiB when the
source is seekable, otherwise (file_size_t)(-1) = 2^64 - 1. -/
def deferThreshold (seekable : Bool) : Nat :=
  if seekable then MiB else 2 ^ 64 - 1

/-- The is_body_present decision: the body is kept in memory iff
body_size is strictly below the threshold (the source defers when
body_size >= threshold). -/
def keepBody (seekable : Bool) (bodySize : Nat) : Bool :=
  decide (bodySize < deferThreshold seekable)

/-! ## Record codec validation (parse_header, external format) -/

structure ExtHeader where
  key : List Nat
  flags : Nat
  crc : Nat
  body_size : Nat
  deriving DecidableEq, Repr

structure IntHeader where
  key : List Nat
  flags : Nat
  crc : Nat
  body_size : Nat
  body_pos : Nat
  is_body_present : Nat
  deriving DecidableEq, Repr

/-- parse_header (external to internal widening) from the run-former:
after the 88-byte header is read, body_size is validated against
100 MiB; on violation the code throws runtime_error("Malformed data").
The parse buffer's file path and current position are parameters so
the statement can express what the error value does and does not
carry. -/
def parseHeader (path : String) (filePos : Nat) (hd : ExtHeader) :
    Except String (IntHeader × Nat) :=
  if 100 * MiB < hd.body_size then .error "Malformed data"
  else .ok ({ key := hd.key, flags := hd.flags, crc := hd.crc,
              body_size := hd.body_size, body_pos := filePos,
              is_body_present := 1 }, hd.body_size)

/-! ## Run-former fill loop (split_and_sort, one pass)

The workspace of size `cap` is filled from both ends: records grow
upward from offset 0 through the render buffer, sort elements grow
downward from offset `cap` (16 bytes each).  Before admitting a
record the code checks

  available_sz < alignof(hd) + sizeof(hd) + body_sz + reserved_sz

with available_sz the bytes from the buffered data's end to the end
of the workspace, alignof(record_header2) = 64, sizeof = 128 (97
payload bytes padded by alignas(64)), and reserved_sz = 16 bytes for
every element including the one about to be added.  Admitting aligns
the write position to 64 (membuf.align) then to 16 (put's repr
alignment), writes the 97 header bytes and the kept body bytes, and
claims one more element cell.
-/

def alignUp (n x : Nat) : Nat := ((x + n - 1) / n) * n

theorem le_alignUp (n x : Nat) (h : 0 < n) : x ≤ alignUp n x := by
  unfold alignUp
  have h1 := Nat.div_add_mod' (x + n - 1) n
  have h2 := Nat.mod_lt (x + n - 1) h
  omega

theorem alignUp_le (n x : Nat) (h : 0 < n) : alignUp n x ≤ x + (n - 1) := by
  unfold alignUp
  have h1 := Nat.div_mul_le_self (x + n - 1) n
  omega

theorem alignUp16_of_64 (d : Nat) : alignUp 16 (alignUp 64 d) = alignUp 64 d := by
  unfold alignUp
  generalize (d + 64 - 1) / 64 = q
  have h : (q * 64 + 16 - 1) / 16 = q * 4 := by
    have he : q * 64 + 16 - 1 = 15 + 16 * (q * 4) := by omega
    rw [he, Nat.add_mul_div_left _ _ (by omega)]
    omega
  rw [h]
  omega

def hdAlignof : Nat := 64
def hdSizeof : Nat := 128
def hdReprSize : Nat := 97
def elemSize : Nat := 16

structure FillState where
  dataEnd : Nat
  elems : Nat
  deriving DecidableEq, Repr

/-- Body bytes kept in the run for a record: zero when the body is
deferred (body_size >= threshold), else the full body. -/
def keptBodySize (thr : Nat) (r : Record) : Nat :=
  if thr ≤ r.body_size then 0 else r.body_size

/-- The capacity check guarding record admission. -/
def fillAdmit (cap : Nat) (s : FillState) (bodySz : Nat) : Bool :=
  decide (hdAlignof + hdSizeof + bodySz + (s.elems + 1) * elemSize ≤ cap - s.dataEnd)

/-- Effect of admitting one record: align to 64 (membuf.align), align
to 16 (put's repr alignment), write the 97 header bytes and the kept
body, and claim one more sort element. -/
def fillStep (s : FillState) (bodySz : Nat) : FillState :=
  { dataEnd := alignUp 16 (alignUp hdAlignof s.dataEnd) + hdReprSize + bodySz,
    elems := s.elems + 1 }

/-- The inner fill loop of one split_and_sort pass: admit records
while the capacity check passes; return the admitted chunk and the
unconsumed remainder of the input. -/
def fillChunk (cap thr : Nat) (s : FillState) : List Record → List Record × List Record
  | [] => ([], [])
  | r :: rest =>
    let b := keptBodySize thr r
    if fillAdmit cap s b then
      let res := fillChunk cap thr (fillStep s b) rest
      (r :: res.1, res.2)
    else ([], r :: rest)

/-- All buffer states assumed during one fill loop (the state before
each admission check and the state after the last admission). -/
def fillStates (cap thr : Nat) (s : FillState) : List Record → List FillState
  | [] => [s]
  | r :: rest =>
    let b := keptBodySize thr r
    if fillAdmit cap s b then s :: fillStates cap thr (fillStep s b) rest
    else [s]

theorem fillStep_disjoint (cap : Nat) (s : FillState) (bodySz : Nat)
    (h : fillAdmit cap s bodySz = true) :
    (fillStep s bodySz).dataEnd + elemSize * (fillStep s bodySz).elems ≤ cap := by
  unfold fillAdmit at h
  rw [decide_eq_true_eq] at h
  unfold fillStep elemSize hdAlignof hdSizeof hdReprSize at *
  have h64 : alignUp 64 s.dataEnd ≤ s.dataEnd + 63 := alignUp_le 64 s.dataEnd (by omega)
  simp only [alignUp16_of_64]
  omega

/-! ## Run sorting (std::sort over sort elements)

The source sorts the sort-element array with std::sort under
sort_element::operator<.  std::sort is an unspecified comparison
sort; the model uses insertion sort.  `sortRun` is the order the sort
establishes when every element's 32-bit offset resolves exactly back
to its record (records within 2^32 bytes of the base): then operator<
is the memcmp key order (settled separately against the full-key
comparison).  The faithful per-pass model with offset truncation is
`emitPass` below; it is compared against `sortRun` under that
exactness bound.
-/

def sortRun (l : List Record) : List Record := l.insertionSort recLe

theorem sortRun_perm (l : List Record) : sortRun l ~ l := List.perm_insertionSort recLe l

theorem sortRun_sorted (l : List Record) : List.Sorted recLe (sortRun l) :=
  List.sorted_insertionSort recLe l

/-! ## K-way heap merge (merge_sorted's heap loop)

The merger keeps one element per open run in a heap ordered by the
reversed key comparison, repeatedly popping the record with the
smallest key.  The model extracts a minimal head among the runs each
step (the heap's order among equal keys is unspecified; the model
takes the first minimal head), dropping exhausted runs.
-/

def extractMin : List (List Record) → Option (Record × List (List Record))
  | [] => none
  | [] :: rest => extractMin rest
  | (x :: xs) :: rest =>
    match extractMin rest with
    | none => some (x, [xs])
    | some (y, rest1) =>
      if recLe x y then some (x, xs :: rest)
      else some (y, (x :: xs) :: rest1)

def runsLen (rs : List (List Record)) : Nat := (rs.map List.length).sum

def kmergeAux : Nat → List (List Record) → List Record
  | 0, _ => []
  | fuel + 1, rs =>
    match extractMin rs with
    | none => []
    | some (r, rs1) => r :: kmergeAux fuel rs1

/-- The k-way merge: pop minimal heads until every run is exhausted. -/
def kmerge (rs : List (List Record)) : List Record := kmergeAux (runsLen rs) rs

theorem extractMin_nil_cons (rest : List (List Record)) :
    extractMin ([] :: rest) = extractMin rest := rfl

theorem extractMin_cons_of_none {x : Record} {xs : List Record}
    {rest : List (List Record)} (he : extractMin rest = none) :
    extractMin ((x :: xs) :: rest) = some (x, [xs]) := by
  rw [extractMin, he]

theorem extractMin_cons_of_some {x : Record} {xs : List Record}
    {rest : List (List Record)} {y : Record} {rest1 : List (List Record)}
    (he : extractMin rest = some (y, rest1)) :
    extractMin ((x :: xs) :: rest) =
      if recLe x y then some (x, xs :: rest) else some (y, (x :: xs) :: rest1) := by
  rw [extractMin, he]

theorem extractMin_none_flatten :
    ∀ {rs : List (List Record)}, extractMin rs = none → rs.flatten = [] := by
  intro rs
  induction rs with
  | nil => intro _; rfl
  | cons head rest ih =>
    cases head with
    | nil =>
      intro h
      rw [extractMin_nil_cons] at h
      simp [ih h]
    | cons x xs =>
      intro h
      cases he : extractMin rest with
      | none => rw [extractMin_cons_of_none he] at h; exact Option.noConfusion h
      | some p =>
        rcases p with ⟨y, rest1⟩
        rw [extractMin_cons_of_some he] at h
        by_cases hc : recLe x y <;> simp [hc] at h

theorem extractMin_perm :
    ∀ {rs : List (List Record)} {r : Record} {rs1 : List (List Record)},
      extractMin rs = some (r, rs1) → rs.flatten ~ r :: rs1.flatten := by
  intro rs
  induction rs with
  | nil => intro r rs1 h; exact Option.noConfusion h
  | cons head rest ih =>
    cases head with
    | nil =>
      intro r rs1 h
      rw [extractMin_nil_cons] at h
      simpa using ih h
    | cons x xs =>
      intro r rs1 h
      cases he : extractMin rest with
      | none =>
        rw [extractMin_cons_of_none he] at h
        injection h with h1
        injection h1 with hr hrs
        subst hr; subst hrs
        simp [extractMin_none_flatten he]
      | some p =>
        rcases p with ⟨y, rest1⟩
        rw [extractMin_cons_of_some he] at h
        by_cases hc : recLe x y
        · rw [if_pos hc] at h
          injection h with h1
          injection h1 with hr hrs
          subst hr; subst hrs
          simp
        · rw [if_neg hc] at h
          injection h with h1
          injection h1 with hr hrs
          subst hr; subst hrs
          have hperm := ih he
          calc ((x :: xs) :: rest).flatten
              = (x :: xs) ++ rest.flatten := by simp
            _ ~ (x :: xs) ++ (y :: rest1.flatten) := List.Perm.append_left _ hperm
            _ ~ y :: ((x :: xs) ++ rest1.flatten) := List.perm_middle
            _ = y :: ((x :: xs) :: rest1).flatten := by simp

theorem extractMin_runsLen {rs : List (List Record)} {r : Record}
    {rs1 : List (List Record)} (h : extractMin rs = some (r, rs1)) :
    runsLen rs = runsLen rs1 + 1 := by
  have hp := (extractMin_perm h).length_eq
  simp only [List.length_flatten, List.length_cons] at hp
  unfold runsLen
  omega

theorem extractMin_min :
    ∀ {rs : List (List Record)} {r : Record} {rs1 : List (List Record)},
      extractMin rs = some (r, rs1) →
      (∀ l ∈ rs, List.Sorted recLe l) →
      ∀ x ∈ rs.flatten, recLe r x := by
  intro rs
  induction rs with
  | nil => intro r rs1 h; exact Option.noConfusion h
  | cons head rest ih =>
    cases head with
    | nil =>
      intro r rs1 h hs
      rw [extractMin_nil_cons] at h
      intro x hx
      simp only [List.flatten_cons, List.nil_append] at hx
      exact ih h (fun l hl => hs l (List.mem_cons_of_mem _ hl)) x (by simpa using hx)
    | cons x xs =>
      intro r rs1 h hs
      have hsorted : List.Sorted recLe (x :: xs) := hs _ (List.mem_cons_self _ _)
      have hhead : ∀ z ∈ x :: xs, recLe x z := by
        intro z hz
        rcases List.mem_cons.mp hz with hz | hz
        · rw [hz]; exact recLe_refl x
        · exact (List.sorted_cons.mp hsorted).1 z hz
      cases he : extractMin rest with
      | none =>
        rw [extractMin_cons_of_none he] at h
        injection h with h1
        injection h1 with hr hrs
        subst hr
        intro z hz
        simp only [List.flatten_cons, extractMin_none_flatten he,
          List.append_nil] at hz
        exact hhead z hz
      | some p =>
        rcases p with ⟨y, rest1⟩
        rw [extractMin_cons_of_some he] at h
        have hrest := ih he (fun l hl => hs l (List.mem_cons_of_mem _ hl))
        by_cases hc : recLe x y
        · rw [if_pos hc] at h
          injection h with h1
          injection h1 with hr hrs
          subst hr
          intro z hz
          simp only [List.flatten_cons, List.mem_append] at hz
          rcases hz with hz | hz
          · exact hhead z hz
          · exact bytesLe_trans hc (hrest z hz)
        · rw [if_neg hc] at h
          injection h with h1
          injection h1 with hr hrs
          subst hr
          have hyx : recLe y x := by
            rcases bytesLe_total x.key y.key with ht | ht
            · exact absurd ht hc
            · exact ht
          intro z hz
          simp only [List.flatten_cons, List.mem_append] at hz
          rcases hz with hz | hz
          · exact bytesLe_trans hyx (hhead z hz)
          · exact hrest z hz

theorem extractMin_sorted :
    ∀ {rs : List (List Record)} {r : Record} {rs1 : List (List Record)},
      extractMin rs = some (r, rs1) →
      (∀ l ∈ rs, List.Sorted recLe l) →
      ∀ l ∈ rs1, List.Sorted recLe l := by
  intro rs
  induction rs with
  | nil => intro r rs1 h; exact Option.noConfusion h
  | cons head rest ih =>
    cases head with
    | nil =>
      intro r rs1 h hs
      rw [extractMin_nil_cons] at h
      exact ih h (fun l hl => hs l (List.mem_cons_of_mem _ hl))
    | cons x xs =>
      intro r rs1 h hs
      have hxs : List.Sorted recLe xs := (List.sorted_cons.mp (hs _ (List.mem_cons_self _ _))).2
      cases he : extractMin rest with
      | none =>
        rw [extractMin_cons_of_none he] at h
        injection h with h1
        injection h1 with hr hrs
        subst hrs
        intro l hl
        simp only [List.mem_singleton] at hl
        subst hl; exact hxs
      | some p =>
        rcases p with ⟨y, rest1⟩
        rw [extractMin_cons_of_some he] at h
        by_cases hc : recLe x y
        · rw [if_pos hc] at h
          injection h with h1
          injection h1 with hr hrs
          subst hrs
          intro l hl
          rcases List.mem_cons.mp hl with hl | hl
          · subst hl; exact hxs
          · exact hs l (List.mem_cons_of_mem _ hl)
        · rw [if_neg hc] at h
          injection h with h1
          injection h1 with hr hrs
          subst hrs
          intro l hl
          rcases List.mem_cons.mp hl with hl | hl
          · subst hl; exact hs _ (List.mem_cons_self _ _)
          · exact ih he (fun l2 hl2 => hs l2 (List.mem_cons_of_mem _ hl2)) l hl

theorem kmergeAux_perm :
    ∀ (fuel : Nat) (rs : List (List Record)), runsLen rs ≤ fuel →
      kmergeAux fuel rs ~ rs.flatten := by
  intro fuel
  induction fuel with
  | zero =>
    intro rs h
    have : rs.flatten.length = 0 := by
      have := List.length_flatten rs
      unfold runsLen at h
      omega
    rw [List.length_eq_zero.mp this]
    rfl
  | succ n ih =>
    intro rs h
    rw [kmergeAux]
    cases he : extractMin rs with
    | none => simp [extractMin_none_flatten he]
    | some p =>
      rcases p with ⟨r, rs1⟩
      have hlen := extractMin_runsLen he
      have hp := extractMin_perm he
      exact ((ih rs1 (by omega)).cons r).trans hp.symm

theorem kmergeAux_mem :
    ∀ (fuel : Nat) (rs : List (List Record)) (x : Record),
      x ∈ kmergeAux fuel rs → x ∈ rs.flatten := by
  intro fuel
  induction fuel with
  | zero => intro rs x h; exact absurd h (List.not_mem_nil x)
  | succ n ih =>
    intro rs x h
    rw [kmergeAux] at h
    cases he : extractMin rs with
    | none => rw [he] at h; exact absurd h (List.not_mem_nil x)
    | some p =>
      rcases p with ⟨r, rs1⟩
      rw [he] at h
      rcases List.mem_cons.mp h with h | h
      · subst h; exact (extractMin_perm he).mem_iff.mpr (List.mem_cons_self _ _)
      · exact (extractMin_perm he).mem_iff.mpr (List.mem_cons_of_mem _ (ih rs1 x h))

theorem kmergeAux_sorted :
    ∀ (fuel : Nat) (rs : List (List Record)),
      (∀ l ∈ rs, List.Sorted recLe l) →
      List.Sorted recLe (kmergeAux fuel rs) := by
  intro fuel
  induction fuel with
  | zero => intro rs _; exact List.sorted_nil
  | succ n ih =>
    intro rs hs
    rw [kmergeAux]
    cases he : extractMin rs with
    | none => exact List.sorted_nil
    | some p =>
      rcases p with ⟨r, rs1⟩
      rw [List.sorted_cons]
      refine ⟨?_, ih rs1 (extractMin_sorted he hs)⟩
      intro b hb
      have hbmem : b ∈ rs1.flatten := kmergeAux_mem n rs1 b hb
      have : b ∈ rs.flatten := (extractMin_perm he).mem_iff.mpr (List.mem_cons_of_mem _ hbmem)
      exact extractMin_min he hs b this

theorem kmerge_perm (rs : List (List Record)) : kmerge rs ~ rs.flatten :=
  kmergeAux_perm (runsLen rs) rs (Nat.le_refl _)

theorem kmerge_sorted (rs : List (List Record))
    (hs : ∀ l ∈ rs, List.Sorted recLe l) : List.Sorted recLe (kmerge rs) :=
  kmergeAux_sorted (runsLen rs) rs hs

/-! ## The two phases and the engine

`splitLoop` is split_and_sort under exact offset resolution: each
pass fills a fresh workspace from the input, sorts the admitted
records under the key order, and either writes them to the
destination directly (pass 0 exhausting the input: the single-pass
short-circuit) or appends them to the transient-run queue; it repeats
while input remains.  It is the reference the truncating model
`splitLoopT` below is proven equal to when the workspace lies within
2^32 bytes of the base pointer.  `mergeLoop` is merge_sorted: while
transient runs remain, open up to `fanIn` of them, k-way merge them,
and write the result to the destination when the queue has drained,
else enqueue it as a fresh transient run.  The merger involves no
offset truncation: merge_element reads headers from the run parsers
directly.  Fuel bounds the pass count; the correctness theorems
supply enough fuel for the passes the phases actually perform.
-/

def splitLoop (cap thr : Nat) :
    Nat → Nat → List Record → List (List Record) → List (List Record) × List Record
  | 0, _, _, queue => (queue, [])
  | fuel + 1, segNo, input, queue =>
    if segNo = 0 ∧ (fillChunk cap thr ⟨0, 0⟩ input).2 = [] then
      (queue, sortRun (fillChunk cap thr ⟨0, 0⟩ input).1)
    else if (fillChunk cap thr ⟨0, 0⟩ input).2 = [] then
      (queue ++ [sortRun (fillChunk cap thr ⟨0, 0⟩ input).1], [])
    else
      splitLoop cap thr fuel (segNo + 1) (fillChunk cap thr ⟨0, 0⟩ input).2
        (queue ++ [sortRun (fillChunk cap thr ⟨0, 0⟩ input).1])

def mergeLoop (fanIn : Nat) : Nat → List (List Record) → List Record
  | 0, _ => []
  | fuel + 1, queue =>
    match queue with
    | [] => []
    | q :: qs =>
      if ((q :: qs).drop fanIn).isEmpty then kmerge ((q :: qs).take fanIn)
      else
        mergeLoop fanIn fuel
          ((q :: qs).drop fanIn ++ [kmerge ((q :: qs).take fanIn)])

/-- The engine under exact offset resolution: split_and_sort followed
by merge_sorted.  When the run-former used its single-pass
short-circuit the transient queue is empty and the merger's while
loop never runs, leaving the directly written destination.  The
faithful engine with offset truncation is `engineT` below. -/
def engine (cap thr fanIn : Nat) (input : List Record) : List Record :=
  if (splitLoop cap thr (input.length + 1) 0 input []).1.isEmpty then
    (splitLoop cap thr (input.length + 1) 0 input []).2
  else
    mergeLoop fanIn (splitLoop cap thr (input.length + 1) 0 input []).1.length
      (splitLoop cap thr (input.length + 1) 0 input []).1

theorem fillChunk_append (cap thr : Nat) :
    ∀ (input : List Record) (s : FillState),
      (fillChunk cap thr s input).1 ++ (fillChunk cap thr s input).2 = input := by
  intro input
  induction input with
  | nil => intro s; rfl
  | cons r rest ih =>
    intro s
    rw [fillChunk]
    by_cases h : fillAdmit cap s (keptBodySize thr r) = true
    · simp only [h, if_true, List.cons_append]
      rw [ih (fillStep s (keptBodySize thr r))]
    · simp only [Bool.not_eq_true] at h
      simp [h]

theorem fillChunk_cons_of_fits (cap thr : Nat) (r : Record) (rest : List Record)
    (h : fillAdmit cap ⟨0, 0⟩ (keptBodySize thr r) = true) :
    (fillChunk cap thr ⟨0, 0⟩ (r :: rest)).1 =
      r :: (fillChunk cap thr (fillStep ⟨0, 0⟩ (keptBodySize thr r)) rest).1 := by
  rw [fillChunk]
  simp [h]

theorem splitLoop_spec (cap thr : Nat) :
    ∀ (fuel segNo : Nat) (input : List Record) (queue : List (List Record)),
      input.length < fuel →
      (∀ r ∈ input, fillAdmit cap ⟨0, 0⟩ (keptBodySize thr r) = true) →
      (∀ l ∈ queue, List.Sorted recLe l) →
      ((splitLoop cap thr fuel segNo input queue).1.flatten
          ++ (splitLoop cap thr fuel segNo input queue).2)
        ~ (queue.flatten ++ input) ∧
      (∀ l ∈ (splitLoop cap thr fuel segNo input queue).1, List.Sorted recLe l) ∧
      List.Sorted recLe (splitLoop cap thr fuel segNo input queue).2 ∧
      ((splitLoop cap thr fuel segNo input queue).2 ≠ [] →
        (splitLoop cap thr fuel segNo input queue).1 = queue) ∧
      (segNo ≠ 0 → (splitLoop cap thr fuel segNo input queue).2 = []) := by
  intro fuel
  induction fuel with
  | zero => intro segNo input queue hlen; omega
  | succ n ih =>
    intro segNo input queue hlen hfit hqs
    have hchunk := fillChunk_append cap thr input ⟨0, 0⟩
    rw [splitLoop]
    by_cases hfin : segNo = 0 ∧ (fillChunk cap thr ⟨0, 0⟩ input).2 = []
    · rw [if_pos hfin]
      have hin : (fillChunk cap thr ⟨0, 0⟩ input).1 = input := by
        rw [hfin.2, List.append_nil] at hchunk; exact hchunk
      refine ⟨?_, fun l hl => hqs l hl, sortRun_sorted _, fun _ => rfl,
        fun hs0 => absurd hfin.1 hs0⟩
      refine List.Perm.append_left _ ?_
      calc sortRun (fillChunk cap thr ⟨0, 0⟩ input).1
          ~ (fillChunk cap thr ⟨0, 0⟩ input).1 := sortRun_perm _
        _ = input := hin
    · rw [if_neg hfin]
      by_cases hr : (fillChunk cap thr ⟨0, 0⟩ input).2 = []
      · rw [if_pos hr]
        have hin : (fillChunk cap thr ⟨0, 0⟩ input).1 = input := by
          rw [hr, List.append_nil] at hchunk; exact hchunk
        refine ⟨?_, ?_, List.sorted_nil, fun hne => absurd rfl hne, fun _ => rfl⟩
        · rw [List.append_nil, List.flatten_append]
          simp only [List.flatten_cons, List.flatten_nil, List.append_nil]
          refine List.Perm.append_left _ ?_
          calc sortRun (fillChunk cap thr ⟨0, 0⟩ input).1
              ~ (fillChunk cap thr ⟨0, 0⟩ input).1 := sortRun_perm _
            _ = input := hin
        · intro l hl
          rcases List.mem_append.mp hl with hl | hl
          · exact hqs l hl
          · rw [List.mem_singleton.mp hl]; exact sortRun_sorted _
      · rw [if_neg hr]
        have hne : input ≠ [] := by
          intro he
          subst he
          exact hr rfl
        have hhead : (fillChunk cap thr ⟨0, 0⟩ input).1 ≠ [] := by
          cases input with
          | nil => exact absurd rfl hne
          | cons r rest =>
            rw [fillChunk_cons_of_fits cap thr r rest
              (hfit r (List.mem_cons_self _ _))]
            exact List.cons_ne_nil _ _
        have hlt : (fillChunk cap thr ⟨0, 0⟩ input).2.length < n := by
          have h1 : (fillChunk cap thr ⟨0, 0⟩ input).1.length
              + (fillChunk cap thr ⟨0, 0⟩ input).2.length = input.length := by
            rw [← List.length_append, hchunk]
          have h2 : 0 < (fillChunk cap thr ⟨0, 0⟩ input).1.length :=
            List.length_pos.mpr hhead
          omega
        have hfit2 : ∀ r ∈ (fillChunk cap thr ⟨0, 0⟩ input).2,
            fillAdmit cap ⟨0, 0⟩ (keptBodySize thr r) = true := by
          intro r hrm
          exact hfit r (by rw [← hchunk]; exact List.mem_append_right _ hrm)
        have hqs2 : ∀ l ∈ queue ++ [sortRun (fillChunk cap thr ⟨0, 0⟩ input).1],
            List.Sorted recLe l := by
          intro l hl
          rcases List.mem_append.mp hl with hl | hl
          · exact hqs l hl
          · rw [List.mem_singleton.mp hl]; exact sortRun_sorted _
        obtain ⟨ihp, ihs, ihd, _, ihz⟩ :=
          ih (segNo + 1) (fillChunk cap thr ⟨0, 0⟩ input).2
            (queue ++ [sortRun (fillChunk cap thr ⟨0, 0⟩ input).1]) hlt hfit2 hqs2
        have hdnil := ihz (Nat.succ_ne_zero segNo)
        refine ⟨?_, ihs, ihd, fun hd2 => absurd hdnil hd2, fun _ => hdnil⟩
        refine ihp.trans ?_
        rw [List.flatten_append]
        simp only [List.flatten_cons, List.flatten_nil, List.append_nil,
          List.append_assoc]
        refine List.Perm.append_left _ ?_
        calc sortRun (fillChunk cap thr ⟨0, 0⟩ input).1
              ++ (fillChunk cap thr ⟨0, 0⟩ input).2
            ~ (fillChunk cap thr ⟨0, 0⟩ input).1
              ++ (fillChunk cap thr ⟨0, 0⟩ input).2 :=
              List.Perm.append_right _ (sortRun_perm _)
          _ = input := hchunk

theorem mergeLoop_spec (fanIn : Nat) (hK : 2 ≤ fanIn) :
    ∀ (fuel : Nat) (queue : List (List Record)),
      queue.length ≤ fuel → queue ≠ [] →
      (∀ l ∈ queue, List.Sorted recLe l) →
      mergeLoop fanIn fuel queue ~ queue.flatten ∧
      List.Sorted recLe (mergeLoop fanIn fuel queue) := by
  intro fuel
  induction fuel with
  | zero =>
    intro queue hlen hne
    cases queue with
    | nil => exact absurd rfl hne
    | cons q qs => simp at hlen
  | succ n ih =>
    intro queue hlen hne hqs
    cases queue with
    | nil => exact absurd rfl hne
    | cons q qs =>
      rw [mergeLoop]
      by_cases hrest : ((q :: qs).drop fanIn).isEmpty
      · simp only [hrest, if_true]
        have hdrop : (q :: qs).drop fanIn = [] := by
          rwa [List.isEmpty_iff] at hrest
        have htake : (q :: qs).take fanIn = q :: qs :=
          List.take_of_length_le (List.drop_eq_nil_iff.mp hdrop)
        rw [htake]
        exact ⟨kmerge_perm _, kmerge_sorted _ hqs⟩
      · rw [if_neg hrest]
        have hdrop_ne : (q :: qs).drop fanIn ≠ [] := by
          intro he; rw [he] at hrest; exact hrest rfl
        have hlonger : fanIn < (q :: qs).length := by
          by_contra hle
          exact hdrop_ne (List.drop_eq_nil_iff.mpr (by omega))
        have hlen2 : ((q :: qs).drop fanIn ++ [kmerge ((q :: qs).take fanIn)]).length ≤ n := by
          rw [List.length_append, List.length_drop]
          simp only [List.length_singleton]
          omega
        have hne2 : (q :: qs).drop fanIn ++ [kmerge ((q :: qs).take fanIn)] ≠ [] := by
          simp
        have hqs2 : ∀ l ∈ (q :: qs).drop fanIn ++ [kmerge ((q :: qs).take fanIn)],
            List.Sorted recLe l := by
          intro l hl
          rcases List.mem_append.mp hl with hl | hl
          · exact hqs l (List.mem_of_mem_drop hl)
          · rw [List.mem_singleton.mp hl]
            exact kmerge_sorted _ (fun l2 hl2 => hqs l2 (List.mem_of_mem_take hl2))
        obtain ⟨ihp, ihs⟩ := ih _ hlen2 hne2 hqs2
        refine ⟨ihp.trans ?_, ihs⟩
        rw [List.flatten_append]
        simp only [List.flatten_cons, List.flatten_nil, List.append_nil]
        calc ((q :: qs).drop fanIn).flatten ++ kmerge ((q :: qs).take fanIn)
            ~ ((q :: qs).drop fanIn).flatten ++ ((q :: qs).take fanIn).flatten :=
              List.Perm.append_left _ (kmerge_perm _)
          _ ~ ((q :: qs).take fanIn).flatten ++ ((q :: qs).drop fanIn).flatten :=
              List.perm_append_comm
          _ = ((q :: qs).take fanIn ++ (q :: qs).drop fanIn).flatten :=
              (List.flatten_append _ _).symm
          _ = (q :: qs).flatten := by rw [List.take_append_drop]

/-- The exact-resolution reference result: under exact offsets the
engine writes a sorted multiset permutation of the input.  The
workspace capacity must admit every record (each pass then consumes
at least one record) and the merge fan-in is at least 2 (with the
source's buffer carving this holds whenever the arena fits one 40 MiB
output buffer plus two 25 MiB run buffers).  The claim-level theorem
is `engine_output_sorted_permutation_within_4GiB` below, about the
truncating model `engineT`. -/
theorem engine_output_is_sorted_permutation (cap thr fanIn : Nat)
    (input : List Record)
    (hK : 2 ≤ fanIn)
    (hfit : ∀ r ∈ input, hdAlignof + hdSizeof + keptBodySize thr r + elemSize ≤ cap)
    (hwf : ∀ r ∈ input, r.body_size ≤ 100 * MiB ∧ r.body.length = r.body_size) :
    engine cap thr fanIn input ~ input ∧
    List.Sorted recLe (engine cap thr fanIn input) := by
  have hfit2 : ∀ r ∈ input, fillAdmit cap ⟨0, 0⟩ (keptBodySize thr r) = true := by
    intro r hr
    unfold fillAdmit
    rw [decide_eq_true_eq]
    show hdAlignof + hdSizeof + keptBodySize thr r + (0 + 1) * elemSize ≤ cap - 0
    have := hfit r hr
    unfold hdAlignof hdSizeof elemSize at *
    omega
  obtain ⟨hp, hs, hd, hq, _⟩ := splitLoop_spec cap thr (input.length + 1) 0 input []
    (Nat.lt_succ_self _) hfit2 (fun l hl => absurd hl (List.not_mem_nil l))
  unfold engine
  by_cases hq1 : (splitLoop cap thr (input.length + 1) 0 input []).1.isEmpty
  · rw [if_pos hq1]
    rw [List.isEmpty_iff] at hq1
    rw [hq1] at hp
    simp only [List.flatten_nil, List.nil_append] at hp
    exact ⟨hp, hd⟩
  · rw [if_neg hq1]
    have hne : (splitLoop cap thr (input.length + 1) 0 input []).1 ≠ [] := by
      intro he; rw [he] at hq1; exact hq1 rfl
    have hd2 : (splitLoop cap thr (input.length + 1) 0 input []).2 = [] := by
      by_cases h : (splitLoop cap thr (input.length + 1) 0 input []).2 = []
      · exact h
      · exact absurd (hq h) hne
    rw [hd2, List.append_nil] at hp
    simp only [List.flatten_nil, List.nil_append] at hp
    obtain ⟨mp, ms⟩ := mergeLoop_spec fanIn hK
      (splitLoop cap thr (input.length + 1) 0 input []).1.length
      (splitLoop cap thr (input.length + 1) 0 input []).1
      (Nat.le_refl _) hne hs
    exact ⟨mp.trans hp, ms⟩

/-- A concrete record whose key is one byte value repeated. -/
def sampleRec (b : Nat) : Record :=
  { key := List.replicate 64 b, flags := 0, crc := 0, body_size := 0, body := [] }

/-! ## AVAILABLE_MEM parsing (get_available_mem_size)

The source calls strtod and then checks

  endp == p || (*endp && !strchr("kKmMgG", *endp)) || v < 0.0

so only the single character at endp is ever examined; on success the
value is scaled by the unit that character selects (default: bytes).
-/

/-- strchr("kKmMgG", c) with c nonzero. -/
def isSuffixChar (c : Char) : Bool :=
  c = 'k' || c = 'K' || c = 'm' || c = 'M' || c = 'g' || c = 'G'

/-- The unit selected by the switch on *endp. -/
def unitOf (c : Char) : Nat :=
  if c = 'k' || c = 'K' then KiB
  else if c = 'm' || c = 'M' then MiB
  else if c = 'g' || c = 'G' then GiB
  else 1

/-- Greedy decimal-digit scan: consume leading digits into an
accumulator, return the value and the unconsumed tail (endp). -/
def digitsToNat (acc : Nat) : List Char → Nat × List Char
  | [] => (acc, [])
  | c :: cs =>
    if c.isDigit then digitsToNat (acc * 10 + (c.toNat - 48)) cs
    else (acc, c :: cs)

/-- True when the list does not start with a digit, so a digit scan
stops exactly at its head. -/
def headNotDigit : List Char → Bool
  | [] => true
  | c :: _ => !c.isDigit

/-- Model of the C strtod call restricted to the decimal-integer
fragment: an optional minus sign followed by decimal digits.  Returns
the value and the rest of the string (endp), or none when no digits
were consumed (endp == p).  The source's strtod returns a double,
exact only for integers below 2^53: the value-asserting theorems
below carry that bound as a hypothesis, and inputs exercising
strtod's fraction, exponent, hex, infinity or NaN syntax lie outside
the model's domain. -/
def strtodInt : List Char → Option (Int × List Char)
  | [] => none
  | c :: cs =>
    if c = '-' then
      if headNotDigit cs then none
      else some (- ((digitsToNat 0 cs).1 : Int), (digitsToNat 0 cs).2)
    else if c.isDigit then
      some (((digitsToNat 0 (c :: cs)).1 : Int), (digitsToNat 0 (c :: cs)).2)
    else none

/-- get_available_mem_size: unset gives 8 GiB; else parse with strtod,
reject when nothing parsed, when the character at endp is nonzero and
not a suffix, or when the value is negative; scale by the suffix at
endp (bytes when endp is the terminator). -/
def getAvailableMemSize (env : Option (List Char)) : Except String Nat :=
  match env with
  | none => Except.ok (8 * GiB)
  | some s =>
    match strtodInt s with
    | none =>
      Except.error (String.mk ("Invalid settings in env: AVAILABLE_MEM=".toList ++ s))
    | some (v, rest) =>
      if (match rest with | [] => false | c :: _ => !(isSuffixChar c)) then
        Except.error (String.mk ("Invalid settings in env: AVAILABLE_MEM=".toList ++ s))
      else if v < 0 then
        Except.error (String.mk ("Invalid settings in env: AVAILABLE_MEM=".toList ++ s))
      else
        match rest with
        | [] => Except.ok v.toNat
        | c :: _ => Except.ok (v.toNat * unitOf c)

/-- The reference result exercised at a concrete two-record input. -/
theorem engine_output_is_sorted_permutation_witness :
    ((2 : Nat) ≤ 2) ∧
    (∀ r ∈ [sampleRec 2, sampleRec 1],
      hdAlignof + hdSizeof + keptBodySize MiB r + elemSize ≤ 1024) ∧
    (∀ r ∈ [sampleRec 2, sampleRec 1],
      r.body_size ≤ 100 * MiB ∧ r.body.length = r.body_size) ∧
    (engine 1024 MiB 2 [sampleRec 2, sampleRec 1] ~ [sampleRec 2, sampleRec 1] ∧
      List.Sorted recLe (engine 1024 MiB 2 [sampleRec 2, sampleRec 1])) :=
  ⟨by decide, by decide, by decide,
    engine_output_is_sorted_permutation 1024 MiB 2 [sampleRec 2, sampleRec 1]
      (by decide) (by decide) (by decide)⟩

/-- The prefix-then-tail comparison against full-key memcmp, as a
lemma shared by the run-former exactness results. -/
theorem sortElemLt_iff_aux
    (fetchKey : Nat → List Nat) (base addrA addrB : Nat) (ka kb : List Nat)
    (hA2 : addrA - base < 2 ^ 32) (hB2 : addrB - base < 2 ^ 32)
    (hA1 : base ≤ addrA) (hB1 : base ≤ addrB)
    (hka : ka.length = 64) (hkb : kb.length = 64)
    (hfA : fetchKey addrA = ka) (hfB : fetchKey addrB = kb) :
    sortElemLt fetchKey base (sortElemInit base addrA ka) (sortElemInit base addrB kb)
      = true
      ↔ byteCmp ka kb = .lt := by
  have hresA : sortElemHeaderAddr base (sortElemInit base addrA ka) = addrA :=
    sortElemHeaderAddr_init base addrA ka hA1 hA2
  have hresB : sortElemHeaderAddr base (sortElemInit base addrB kb) = addrB :=
    sortElemHeaderAddr_init base addrB kb hB1 hB2
  have hpfxA : (sortElemInit base addrA ka).pfx = ka.take 12 := rfl
  have hpfxB : (sortElemInit base addrB kb).pfx = kb.take 12 := rfl
  have hde : byteCmp ka kb
      = (byteCmp (ka.take 12) (kb.take 12)).then (byteCmp (ka.drop 12) (kb.drop 12)) := by
    conv_lhs => rw [← List.take_append_drop 12 ka, ← List.take_append_drop 12 kb]
    exact byteCmp_append (by rw [List.length_take, List.length_take, hka, hkb]) _ _
  unfold sortElemLt
  rw [hpfxA, hpfxB, hresA, hresB, hfA, hfB, hde]
  cases h : byteCmp (ka.take 12) (kb.take 12) with
  | lt => simp [Ordering.then]
  | eq => simp [Ordering.then]
  | gt => simp [Ordering.then]

/-- C2: For sort elements whose records lie within 2^32 bytes of the
base pointer (exact 32-bit offsets), sort_element::operator< —
compare the 12-byte embedded prefixes, then on a tie follow the
offsets and compare the remaining 52 key bytes — is equivalent to the
naive memcmp over the full 64-byte keys. -/
theorem sort_element_lt_iff_full_key_memcmp
    (fetchKey : Nat → List Nat) (base addrA addrB : Nat) (ka kb : List Nat)
    (hA2 : addrA - base < 2 ^ 32) (hB2 : addrB - base < 2 ^ 32)
    (hA1 : base ≤ addrA) (hB1 : base ≤ addrB)
    (hka : ka.length = 64) (hkb : kb.length = 64)
    (hfA : fetchKey addrA = ka) (hfB : fetchKey addrB = kb) :
    sortElemLt fetchKey base (sortElemInit base addrA ka) (sortElemInit base addrB kb)
      = true
      ↔ byteCmp ka kb = .lt :=
  sortElemLt_iff_aux fetchKey base addrA addrB ka kb hA2 hB2 hA1 hB1 hka hkb hfA hfB

/-- A 64-byte key whose 12-byte head ties with keyHiTail's and whose
tail is smaller. -/
def keyLoTail : List Nat := List.replicate 12 5 ++ List.replicate 52 1

/-- A 64-byte key agreeing with keyLoTail on the first 12 bytes. -/
def keyHiTail : List Nat := List.replicate 12 5 ++ List.replicate 52 9

/-- A two-record heap for the C2 witness. -/
def demoFetch (a : Nat) : List Nat := if a = 100 then keyLoTail else keyHiTail

/-- Witness for C2: two elements that tie on the prefix and are
decided by the tail comparison through the offsets. -/
theorem sort_element_lt_iff_full_key_memcmp_witness :
    ((100 : Nat) - 0 < 2 ^ 32 ∧ (200 : Nat) - 0 < 2 ^ 32 ∧
      keyLoTail.length = 64 ∧ keyHiTail.length = 64 ∧
      demoFetch 100 = keyLoTail ∧ demoFetch 200 = keyHiTail) ∧
    (sortElemLt demoFetch 0 (sortElemInit 0 100 keyLoTail) (sortElemInit 0 200 keyHiTail)
        = true
      ↔ byteCmp keyLoTail keyHiTail = .lt) :=
  ⟨by decide,
    sort_element_lt_iff_full_key_memcmp demoFetch 0 100 200 keyLoTail keyHiTail
      (by decide) (by decide) (by decide) (by decide) (by decide) (by decide)
      (by decide) (by decide)⟩

/-- C3 counterexample: with the default memory budget the arena is
8 GiB, and a record_header2 placed 4 GiB past the base pointer has
its offset truncated to 32 bits: init followed by get_header resolves
to the base, not to the record's address. -/
theorem sort_element_roundtrip_fails_in_default_arena :
    getAvailableMemSize none = Except.ok (8 * GiB) ∧
    4 * GiB < 8 * GiB ∧
    sortElemHeaderAddr 0 (sortElemInit 0 (4 * GiB) (List.replicate 64 0)) = 0 ∧
    (4 * GiB : Nat) ≠ 0 := by
  refine ⟨rfl, by decide, ?_, by decide⟩
  show 0 + 4 * GiB % 2 ^ 32 = 0
  decide

/-- C3 amended: init followed by get_header is a round-trip exactly
for records within 2^32 bytes of the base pointer (an arena of at
most 4 GiB), not throughout the default 8 GiB arena. -/
theorem sort_element_offset_roundtrip (base addr : Nat) (key : List Nat)
    (h1 : base ≤ addr) (h2 : addr - base < 2 ^ 32) :
    sortElemHeaderAddr base (sortElemInit base addr key) = addr :=
  sortElemHeaderAddr_init base addr key h1 h2

/-- Witness for the amended C3. -/
theorem sort_element_offset_roundtrip_witness :
    ((3 : Nat) ≤ 1003 ∧ (1003 : Nat) - 3 < 2 ^ 32) ∧
    sortElemHeaderAddr 3 (sortElemInit 3 1003 (List.replicate 64 7)) = 1003 :=
  ⟨by decide,
    sort_element_offset_roundtrip 3 1003 (List.replicate 64 7) (by decide) (by decide)⟩

/-! ## The run-former pass with offset truncation

One split_and_sort pass places each admitted record_header2 at a
64/16-aligned position of the workspace, whose start sits `wOff`
bytes past the sort-element base pointer (in the source wOff is the
4 MiB input buffer plus the 25 MiB output buffer).  Each sort element
stores the record's base-relative address truncated to 32 bits; both
the comparator's tail comparison and the emission loop
(output.put(i->get_header()); output.write(i->get_body())) then
dereference base + offset.  `fillPlaced` computes the placements,
`resolveRec` is that dereference — the record whose header starts at
the resolved address, or `junk` (unspecified memory) when no record
starts there — and `emitPass` is the sort-then-emit of one pass.
When every placement lies below 2^32 the resolution is exact and the
pass coincides with the exact-reference `sortRun`; past 4 GiB the
truncated offsets wrap and emission fetches wrong records.
-/

/-- The header position a record admitted at buffered-data end d is
written to: align to 64 (membuf.align) then to 16 (put's repr
alignment). -/
def placePos (d : Nat) : Nat := alignUp 16 (alignUp hdAlignof d)

/-- The (base-relative address, record) placements of one pass. -/
def fillPlaced (cap thr wOff : Nat) (s : FillState) : List Record → List (Nat × Record)
  | [] => []
  | r :: rest =>
    if fillAdmit cap s (keptBodySize thr r) then
      (wOff + placePos s.dataEnd, r) ::
        fillPlaced cap thr wOff (fillStep s (keptBodySize thr r)) rest
    else []

/-- get_header's dereference of a resolved address: the record whose
header was placed there, or `junk` — the unspecified bytes the real
program reinterprets — when no record starts at that address. -/
def resolveRec (placed : List (Nat × Record)) (junk : Record) (a : Nat) : Record :=
  match placed.find? (fun p => p.1 == a) with
  | some p => p.2
  | none => junk

/-- The key read by a get_header dereference during the pass. -/
def fetchViaPlaced (placed : List (Nat × Record)) (junk : Record) (a : Nat) : List Nat :=
  (resolveRec placed junk a).key

/-- The order std::sort establishes on the pass's placements: the
sort_element comparator applied to the elements init builds for them,
with tail comparisons dereferencing the truncated offsets. -/
def placedLe (placed : List (Nat × Record)) (junk : Record) (p q : Nat × Record) : Prop :=
  ¬ (sortElemLt (fetchViaPlaced placed junk) 0
      (sortElemInit 0 q.1 q.2.key) (sortElemInit 0 p.1 p.2.key) = true)

instance (placed : List (Nat × Record)) (junk : Record) :
    DecidableRel (placedLe placed junk) := fun p q => by
  unfold placedLe; infer_instance

/-- Ordering the placements by the underlying records' key order. -/
def sndLe (p q : Nat × Record) : Prop := recLe p.2 q.2

instance : DecidableRel sndLe := fun p q => by
  unfold sndLe; infer_instance

/-- The sort-element array a pass builds (one element per admitted
record; offsets truncated to 32 bits, base at address 0). -/
def passElems (placed : List (Nat × Record)) : List SortElem :=
  placed.map (fun p => sortElemInit 0 p.1 p.2.key)

/-- One pass's emission: sort under the element comparator, then emit
each element's get_header dereference. -/
def emitPass (placed : List (Nat × Record)) (junk : Record) : List Record :=
  (placed.insertionSort (placedLe placed junk)).map
    (fun p => resolveRec placed junk (sortElemHeaderAddr 0 (sortElemInit 0 p.1 p.2.key)))

theorem orderedInsert_congr {α : Type} {le1 le2 : α → α → Prop}
    [DecidableRel le1] [DecidableRel le2] (a : α) :
    ∀ l : List α, (∀ x ∈ l, (le1 a x ↔ le2 a x)) →
      List.orderedInsert le1 a l = List.orderedInsert le2 a l := by
  intro l
  induction l with
  | nil => intro _; rfl
  | cons b m ih =>
    intro hx
    rw [List.orderedInsert, List.orderedInsert]
    by_cases hc : le1 a b
    · rw [if_pos hc, if_pos ((hx b (List.mem_cons_self _ _)).mp hc)]
    · rw [if_neg hc,
        if_neg (fun h2 => hc ((hx b (List.mem_cons_self _ _)).mpr h2)),
        ih (fun x hm => hx x (List.mem_cons_of_mem _ hm))]

theorem insertionSort_congr {α : Type} {le1 le2 : α → α → Prop}
    [DecidableRel le1] [DecidableRel le2] :
    ∀ l : List α, (∀ x ∈ l, ∀ y ∈ l, (le1 x y ↔ le2 x y)) →
      l.insertionSort le1 = l.insertionSort le2 := by
  intro l
  induction l with
  | nil => intro _; rfl
  | cons a m ih =>
    intro h
    rw [List.insertionSort, List.insertionSort,
      ih (fun x hx y hy => h x (List.mem_cons_of_mem _ hx) y (List.mem_cons_of_mem _ hy))]
    apply orderedInsert_congr
    intro x hx
    have hxm : x ∈ m := (List.perm_insertionSort le2 m).subset hx
    exact h a (List.mem_cons_self _ _) x (List.mem_cons_of_mem _ hxm)

theorem insertionSort_map_of_iff {α β : Type} (f : α → β)
    (r : β → β → Prop) [DecidableRel r] (le : α → α → Prop) [DecidableRel le]
    (h : ∀ a b, le a b ↔ r (f a) (f b)) :
    ∀ l : List α, (l.insertionSort le).map f = (l.map f).insertionSort r := by
  intro l
  induction l with
  | nil => rfl
  | cons a l ih =>
    rw [List.insertionSort, List.map_cons, List.insertionSort, ← ih]
    generalize l.insertionSort le = m
    induction m with
    | nil => rfl
    | cons b m ihm =>
      rw [List.orderedInsert, List.map_cons, List.orderedInsert]
      by_cases hc : le a b
      · rw [if_pos hc, if_pos ((h a b).mp hc), List.map_cons, List.map_cons]
      · rw [if_neg hc, if_neg (fun h2 => hc ((h a b).mpr h2)), List.map_cons, ihm]

theorem fillPlaced_map_snd (cap thr wOff : Nat) :
    ∀ (input : List Record) (s : FillState),
      (fillPlaced cap thr wOff s input).map Prod.snd = (fillChunk cap thr s input).1 := by
  intro input
  induction input with
  | nil => intro s; rfl
  | cons r rest ih =>
    intro s
    rw [fillPlaced, fillChunk]
    by_cases h : fillAdmit cap s (keptBodySize thr r) = true
    · simp only [h, if_true, List.map_cons]
      rw [ih (fillStep s (keptBodySize thr r))]
    · simp only [Bool.not_eq_true] at h
      simp [h]

theorem fillPlaced_bounds (cap thr wOff : Nat) :
    ∀ (input : List Record) (s : FillState),
      ∀ p ∈ fillPlaced cap thr wOff s input,
        wOff + s.dataEnd ≤ p.1 ∧ p.1 + hdReprSize ≤ wOff + cap := by
  intro input
  induction input with
  | nil => intro s p hp; exact absurd hp (List.not_mem_nil p)
  | cons r rest ih =>
    intro s p hp
    rw [fillPlaced] at hp
    by_cases h : fillAdmit cap s (keptBodySize thr r) = true
    · rw [if_pos h] at hp
      have had : hdAlignof + hdSizeof + keptBodySize thr r + (s.elems + 1) * elemSize
          ≤ cap - s.dataEnd := by
        unfold fillAdmit at h; rwa [decide_eq_true_eq] at h
      have hpp : placePos s.dataEnd = alignUp 64 s.dataEnd := by
        unfold placePos hdAlignof
        exact alignUp16_of_64 s.dataEnd
      have hlow : s.dataEnd ≤ placePos s.dataEnd := by
        rw [hpp]; exact le_alignUp 64 s.dataEnd (by omega)
      have hhigh : placePos s.dataEnd ≤ s.dataEnd + 63 := by
        rw [hpp]; exact alignUp_le 64 s.dataEnd (by omega)
      unfold hdAlignof hdSizeof elemSize at had
      rcases List.mem_cons.mp hp with hph | hpt
      · rw [hph]
        unfold hdReprSize
        exact ⟨by show wOff + s.dataEnd ≤ wOff + placePos s.dataEnd; omega,
          by show wOff + placePos s.dataEnd + 97 ≤ wOff + cap; omega⟩
      · have hrec := ih (fillStep s (keptBodySize thr r)) p hpt
        have hstep : (fillStep s (keptBodySize thr r)).dataEnd
            = placePos s.dataEnd + hdReprSize + keptBodySize thr r := rfl
        rw [hstep] at hrec
        unfold hdReprSize at hrec ⊢
        omega
    · rw [if_neg h] at hp
      exact absurd hp (List.not_mem_nil p)

theorem fillPlaced_pairwise (cap thr wOff : Nat) :
    ∀ (input : List Record) (s : FillState),
      (fillPlaced cap thr wOff s input).Pairwise (fun p q => p.1 < q.1) := by
  intro input
  induction input with
  | nil => intro s; exact List.Pairwise.nil
  | cons r rest ih =>
    intro s
    rw [fillPlaced]
    by_cases h : fillAdmit cap s (keptBodySize thr r) = true
    · rw [if_pos h]
      refine List.Pairwise.cons ?_ (ih _)
      intro q hq
      have hb := (fillPlaced_bounds cap thr wOff rest (fillStep s (keptBodySize thr r)) q hq).1
      have hstep : (fillStep s (keptBodySize thr r)).dataEnd
          = placePos s.dataEnd + hdReprSize + keptBodySize thr r := rfl
      rw [hstep] at hb
      show wOff + placePos s.dataEnd < q.1
      unfold hdReprSize at hb
      omega
    · rw [if_neg h]
      exact List.Pairwise.nil

theorem find_first_of_pairwise :
    ∀ {placed : List (Nat × Record)},
      placed.Pairwise (fun p q => p.1 < q.1) →
      ∀ {p : Nat × Record}, p ∈ placed →
        placed.find? (fun q => q.1 == p.1) = some p := by
  intro placed
  induction placed with
  | nil => intro _ p hp; exact absurd hp (List.not_mem_nil p)
  | cons b rest ih =>
    intro hpw p hp
    rcases List.mem_cons.mp hp with hph | hpt
    · rw [hph]
      exact List.find?_cons_of_pos _ (by simp)
    · have hlt : b.1 < p.1 := (List.pairwise_cons.mp hpw).1 p hpt
      rw [List.find?_cons_of_neg _ (by simp; omega)]
      exact ih (List.pairwise_cons.mp hpw).2 hpt

theorem resolveRec_mem (junk : Record) {placed : List (Nat × Record)}
    (hpw : placed.Pairwise (fun p q => p.1 < q.1))
    {p : Nat × Record} (hm : p ∈ placed) :
    resolveRec placed junk p.1 = p.2 := by
  unfold resolveRec
  rw [find_first_of_pairwise hpw hm]

/-- With an exact (untruncated) offset, a placement's element
resolves back to its own record. -/
theorem resolveRec_init (junk : Record) {placed : List (Nat × Record)}
    (hpw : placed.Pairwise (fun p q => p.1 < q.1))
    {p : Nat × Record} (hm : p ∈ placed) (ha : p.1 < 2 ^ 32) :
    resolveRec placed junk (sortElemHeaderAddr 0 (sortElemInit 0 p.1 p.2.key)) = p.2 := by
  rw [sortElemHeaderAddr_init 0 p.1 p.2.key (Nat.zero_le _) (by omega)]
  exact resolveRec_mem junk hpw hm

/-- Under exact offsets the element order on placements is the record
key order. -/
theorem placedLe_iff_recLe (junk : Record) {placed : List (Nat × Record)}
    (hpw : placed.Pairwise (fun p q => p.1 < q.1))
    (hbound : ∀ p ∈ placed, p.1 < 2 ^ 32)
    (hkeys : ∀ p ∈ placed, p.2.key.length = 64) :
    ∀ p ∈ placed, ∀ q ∈ placed, (placedLe placed junk p q ↔ sndLe p q) := by
  intro p hp q hq
  unfold placedLe sndLe recLe bytesLe
  have hfq : fetchViaPlaced placed junk q.1 = q.2.key := by
    unfold fetchViaPlaced
    rw [resolveRec_mem junk hpw hq]
  have hfp : fetchViaPlaced placed junk p.1 = p.2.key := by
    unfold fetchViaPlaced
    rw [resolveRec_mem junk hpw hp]
  rw [sortElemLt_iff_aux (fetchViaPlaced placed junk) 0 q.1 p.1 q.2.key p.2.key
    (by have := hbound q hq; omega) (by have := hbound p hp; omega)
    (Nat.zero_le _) (Nat.zero_le _) (hkeys q hq) (hkeys p hp) hfq hfp]
  rw [byteCmp_swap p.2.key q.2.key]
  cases hcmp : byteCmp p.2.key q.2.key <;> simp [Ordering.swap]

/-- Under exact offsets a pass's emission is exactly the sorted
admitted records. -/
theorem emitPass_exact (junk : Record) {placed : List (Nat × Record)}
    (hpw : placed.Pairwise (fun p q => p.1 < q.1))
    (hbound : ∀ p ∈ placed, p.1 < 2 ^ 32)
    (hkeys : ∀ p ∈ placed, p.2.key.length = 64) :
    emitPass placed junk = sortRun (placed.map Prod.snd) := by
  unfold emitPass sortRun
  rw [insertionSort_congr placed (placedLe_iff_recLe junk hpw hbound hkeys)]
  rw [List.map_congr_left (fun p hp => resolveRec_init junk hpw
      ((List.perm_insertionSort sndLe placed).subset hp)
      (hbound p ((List.perm_insertionSort sndLe placed).subset hp)))]
  exact insertionSort_map_of_iff Prod.snd recLe sndLe (fun a b => Iff.rfl) placed

/-- split_and_sort with offset truncation: as `splitLoop`, but each
pass's run is `emitPass` over the pass's placements — sorted and
emitted through the 32-bit offsets — instead of the exact-resolution
`sortRun`. -/
def splitLoopT (cap thr wOff : Nat) (junk : Record) :
    Nat → Nat → List Record → List (List Record) → List (List Record) × List Record
  | 0, _, _, queue => (queue, [])
  | fuel + 1, segNo, input, queue =>
    if segNo = 0 ∧ (fillChunk cap thr ⟨0, 0⟩ input).2 = [] then
      (queue, emitPass (fillPlaced cap thr wOff ⟨0, 0⟩ input) junk)
    else if (fillChunk cap thr ⟨0, 0⟩ input).2 = [] then
      (queue ++ [emitPass (fillPlaced cap thr wOff ⟨0, 0⟩ input) junk], [])
    else
      splitLoopT cap thr wOff junk fuel (segNo + 1) (fillChunk cap thr ⟨0, 0⟩ input).2
        (queue ++ [emitPass (fillPlaced cap thr wOff ⟨0, 0⟩ input) junk])

/-- The engine with offset truncation in the run-former:
split_and_sort (splitLoopT) followed by merge_sorted (mergeLoop; the
merger reads headers from the run parsers and involves no offsets). -/
def engineT (cap thr fanIn wOff : Nat) (junk : Record) (input : List Record) :
    List Record :=
  if (splitLoopT cap thr wOff junk (input.length + 1) 0 input []).1.isEmpty then
    (splitLoopT cap thr wOff junk (input.length + 1) 0 input []).2
  else
    mergeLoop fanIn (splitLoopT cap thr wOff junk (input.length + 1) 0 input []).1.length
      (splitLoopT cap thr wOff junk (input.length + 1) 0 input []).1

theorem emitPass_fillPlaced_exact (cap thr wOff : Nat) (junk : Record)
    (input : List Record) (hbound : wOff + cap ≤ 2 ^ 32)
    (hkeys : ∀ r ∈ input, r.key.length = 64) :
    emitPass (fillPlaced cap thr wOff ⟨0, 0⟩ input) junk
      = sortRun (fillChunk cap thr ⟨0, 0⟩ input).1 := by
  rw [← fillPlaced_map_snd cap thr wOff input ⟨0, 0⟩]
  apply emitPass_exact junk (fillPlaced_pairwise cap thr wOff input ⟨0, 0⟩)
  · intro p hp
    have hb := (fillPlaced_bounds cap thr wOff input ⟨0, 0⟩ p hp).2
    unfold hdReprSize at hb
    omega
  · intro p hp
    apply hkeys
    have hm : p.2 ∈ (fillPlaced cap thr wOff ⟨0, 0⟩ input).map Prod.snd :=
      List.mem_map_of_mem Prod.snd hp
    rw [fillPlaced_map_snd] at hm
    have happ := fillChunk_append cap thr input ⟨0, 0⟩
    rw [← happ]
    exact List.mem_append_left _ hm

theorem splitLoopT_eq (cap thr wOff : Nat) (junk : Record)
    (hbound : wOff + cap ≤ 2 ^ 32) :
    ∀ (fuel segNo : Nat) (input : List Record) (queue : List (List Record)),
      (∀ r ∈ input, r.key.length = 64) →
      splitLoopT cap thr wOff junk fuel segNo input queue
        = splitLoop cap thr fuel segNo input queue := by
  intro fuel
  induction fuel with
  | zero => intro segNo input queue _; rfl
  | succ n ih =>
    intro segNo input queue hkeys
    rw [splitLoopT, splitLoop,
      emitPass_fillPlaced_exact cap thr wOff junk input hbound hkeys]
    by_cases h1 : segNo = 0 ∧ (fillChunk cap thr ⟨0, 0⟩ input).2 = []
    · rw [if_pos h1, if_pos h1]
    · rw [if_neg h1, if_neg h1]
      by_cases h2 : (fillChunk cap thr ⟨0, 0⟩ input).2 = []
      · rw [if_pos h2, if_pos h2]
      · rw [if_neg h2, if_neg h2]
        apply ih
        intro r hr
        apply hkeys
        have happ := fillChunk_append cap thr input ⟨0, 0⟩
        rw [← happ]
        exact List.mem_append_right _ hr

theorem engineT_eq_engine (cap thr fanIn wOff : Nat) (junk : Record)
    (input : List Record) (hbound : wOff + cap ≤ 2 ^ 32)
    (hkeys : ∀ r ∈ input, r.key.length = 64) :
    engineT cap thr fanIn wOff junk input = engine cap thr fanIn input := by
  unfold engineT engine
  rw [splitLoopT_eq cap thr wOff junk hbound (input.length + 1) 0 input [] hkeys]

/-- Unspecified memory contents for the counterexample's dereference
of an address holding no record (not consulted there). -/
def junkRec : Record := sampleRec 0

/-- C1 counterexample: under the default memory budget the arena is
8 GiB, so a run-former pass can place records past base + 4 GiB.  A
pass that placed records at base-relative addresses 64 and 2^32 + 64
(both inside the default arena) emits through the truncated offsets:
both sort elements store offset 64, get_header resolves both to the
record at 64, and the pass writes that record twice — the output is
not a permutation of the admitted records. -/
theorem engine_emission_not_permutation_past_4GiB :
    getAvailableMemSize none = Except.ok (8 * GiB) ∧
    2 ^ 32 + 64 < 8 * GiB ∧
    emitPass [(64, sampleRec 1), (2 ^ 32 + 64, sampleRec 2)] junkRec
      = [sampleRec 1, sampleRec 1] ∧
    ¬ (emitPass [(64, sampleRec 1), (2 ^ 32 + 64, sampleRec 2)] junkRec
        ~ [sampleRec 1, sampleRec 2]) := by
  refine ⟨rfl, by decide, by decide, by decide⟩

/-- C1 amended: For every well-formed input file (64-byte keys,
body_size at most 100 MiB, no truncated record), provided the
run-former's workspace lies within 2^32 bytes of the sort-element
base pointer (arena at most 4 GiB — the invariant of spec 4.7, not
the default 8 GiB budget), the engine writes to the destination a
multiset permutation of the input records in ascending memcmp order
over the keys.  The workspace capacity must admit every record and
the merge fan-in is at least 2. -/
theorem engine_output_sorted_permutation_within_4GiB
    (cap thr fanIn wOff : Nat) (junk : Record) (input : List Record)
    (hK : 2 ≤ fanIn)
    (hfit : ∀ r ∈ input, hdAlignof + hdSizeof + keptBodySize thr r + elemSize ≤ cap)
    (hwf : ∀ r ∈ input, r.key.length = 64 ∧ r.body_size ≤ 100 * MiB ∧
      r.body.length = r.body_size)
    (hbound : wOff + cap ≤ 2 ^ 32) :
    engineT cap thr fanIn wOff junk input ~ input ∧
    List.Sorted recLe (engineT cap thr fanIn wOff junk input) := by
  rw [engineT_eq_engine cap thr fanIn wOff junk input hbound
    (fun r hr => (hwf r hr).1)]
  exact engine_output_is_sorted_permutation cap thr fanIn input hK hfit
    (fun r hr => (hwf r hr).2)

/-- Witness for the amended C1 at a concrete two-record input, with
the workspace at the source's offset of 29 MiB into the arena. -/
theorem engine_within_4GiB_witness :
    ((2 : Nat) ≤ 2 ∧
      (∀ r ∈ [sampleRec 2, sampleRec 1],
        hdAlignof + hdSizeof + keptBodySize MiB r + elemSize ≤ 1024) ∧
      (∀ r ∈ [sampleRec 2, sampleRec 1],
        r.key.length = 64 ∧ r.body_size ≤ 100 * MiB ∧ r.body.length = r.body_size) ∧
      29 * MiB + 1024 ≤ 2 ^ 32) ∧
    (engineT 1024 MiB 2 (29 * MiB) junkRec [sampleRec 2, sampleRec 1]
        ~ [sampleRec 2, sampleRec 1] ∧
      List.Sorted recLe (engineT 1024 MiB 2 (29 * MiB) junkRec [sampleRec 2, sampleRec 1])) :=
  ⟨⟨by decide, by decide, by decide, by decide⟩,
    engine_output_sorted_permutation_within_4GiB 1024 MiB 2 (29 * MiB) junkRec
      [sampleRec 2, sampleRec 1] (by decide) (by decide) (by decide) (by decide)⟩

/-- C4: Throughout a run-former pass the record region growing up
from the workspace's low end and the sort-element array growing down
from its high end stay disjoint: in every state the fill loop
assumes, the render buffer's data end is below the lowest sort
element (dataEnd + 16*elems ≤ cap, i.e. dataEnd ≤ cap − 16*elems). -/
theorem fill_loop_regions_disjoint (cap thr : Nat) (input : List Record) :
    ∀ (s : FillState), s.dataEnd + elemSize * s.elems ≤ cap →
      ∀ t ∈ fillStates cap thr s input, t.dataEnd + elemSize * t.elems ≤ cap := by
  induction input with
  | nil =>
    intro s hinv t ht
    rw [fillStates] at ht
    rw [List.mem_singleton.mp ht]
    exact hinv
  | cons r rest ih =>
    intro s hinv t ht
    rw [fillStates] at ht
    by_cases h : fillAdmit cap s (keptBodySize thr r) = true
    · rw [if_pos h] at ht
      rcases List.mem_cons.mp ht with hts | ht2
      · rw [hts]; exact hinv
      · exact ih (fillStep s (keptBodySize thr r)) (fillStep_disjoint cap s _ h) t ht2
    · simp only [Bool.not_eq_true] at h
      rw [if_neg (by rw [h]; exact Bool.false_ne_true)] at ht
      rw [List.mem_singleton.mp ht]
      exact hinv

/-- Witness for C4 on a concrete pass admitting one record. -/
theorem fill_loop_regions_disjoint_witness :
    ((0 : Nat) + elemSize * 0 ≤ 1024) ∧
    (∀ t ∈ fillStates 1024 MiB ⟨0, 0⟩ [sampleRec 1],
      t.dataEnd + elemSize * t.elems ≤ 1024) :=
  ⟨by decide,
    fill_loop_regions_disjoint 1024 MiB [sampleRec 1] ⟨0, 0⟩ (by decide)⟩

/-- C5: In the run-former, a seekable source gives threshold 1 MiB —
the body is kept in memory iff body_size < 1 MiB — while a
non-seekable source gives threshold 2^64 − 1, which no record with
body_size ≤ 100 MiB reaches, so no such record is ever deferred. -/
theorem defer_policy (bodySize : Nat) (hwf : bodySize ≤ 100 * MiB) :
    (keepBody true bodySize = true ↔ bodySize < MiB) ∧
    keepBody false bodySize = true := by
  constructor
  · simp [keepBody, deferThreshold]
  · simp only [keepBody, deferThreshold, if_neg Bool.false_ne_true,
      Bool.false_eq_true, if_false, decide_eq_true_eq]
    have hlt : (100 : Nat) * MiB < 2 ^ 64 - 1 := by decide
    omega

/-- Witness for C5 at the largest legal body. -/
theorem defer_policy_witness :
    ((100 : Nat) * MiB ≤ 100 * MiB) ∧
    ((keepBody true (100 * MiB) = true ↔ 100 * MiB < MiB) ∧
      keepBody false (100 * MiB) = true) :=
  ⟨by decide, defer_policy (100 * MiB) (by decide)⟩

/-- C6 counterexample: the error parse_header raises for an oversized
body_size is runtime_error("Malformed data") — the same value
whatever the file path and record offset, and not a "Data corrupt"
message. -/
theorem parse_header_error_carries_no_path_or_offset :
    parseHeader "input.bin" 7 ⟨List.replicate 64 0, 0, 0, 100 * MiB + 1⟩
      = Except.error "Malformed data" ∧
    parseHeader "other.bin" 99 ⟨List.replicate 64 0, 0, 0, 100 * MiB + 1⟩
      = Except.error "Malformed data" ∧
    ("Malformed data" : String) ≠ "Data corrupt" := by
  refine ⟨?_, ?_, by decide⟩ <;>
    · unfold parseHeader
      rw [if_pos (by decide)]

/-- C6 amended: parse_header raises an error exactly when body_size
exceeds 100 MiB, and that error is the constant "Malformed data" —
it carries neither the file path nor the byte offset; within bounds
the header is widened with body_pos set to the current position. -/
theorem parse_header_error_iff_oversized (path : String) (filePos : Nat)
    (hd : ExtHeader) :
    (parseHeader path filePos hd = Except.error "Malformed data"
      ↔ 100 * MiB < hd.body_size) ∧
    (parseHeader path filePos hd = Except.error "Malformed data" ∨
      parseHeader path filePos hd = Except.ok
        ({ key := hd.key, flags := hd.flags, crc := hd.crc, body_size := hd.body_size,
           body_pos := filePos, is_body_present := 1 }, hd.body_size)) := by
  unfold parseHeader
  by_cases h : 100 * MiB < hd.body_size
  · rw [if_pos h]
    exact ⟨⟨fun _ => h, fun _ => rfl⟩, Or.inl rfl⟩
  · rw [if_neg h]
    exact ⟨⟨fun he => Except.noConfusion he, fun hh => absurd hh h⟩, Or.inr rfl⟩

structure RenderBuf where
  cap : Nat
  dataLen : Nat
  deriving DecidableEq, Repr

/-- get_free_mem: (free byte count, buffer after a possible flush). -/
def rbFree (b : RenderBuf) : Nat × RenderBuf :=
  if b.cap - b.dataLen = 0 then (b.cap, { b with dataLen := 0 })
  else (b.cap - b.dataLen, b)

/-- render_buf::write of n bytes: returns the list of offsets at
which the successive portions were placed and the origin pointer the
call returns.  `origin0` is the uninitialized origin observed when n
is zero. -/
def rbWrite : Nat → RenderBuf → Nat → Nat → List Nat × Nat
  | 0, _, _, origin0 => ([], origin0)
  | fuel + 1, b, n, origin0 =>
    if n = 0 then ([], origin0)
    else
      ((rbFree b).2.dataLen ::
        (rbWrite fuel
          { cap := b.cap, dataLen := (rbFree b).2.dataLen + min (rbFree b).1 n }
          (n - min (rbFree b).1 n) (rbFree b).2.dataLen).1,
       (rbWrite fuel
          { cap := b.cap, dataLen := (rbFree b).2.dataLen + min (rbFree b).1 n }
          (n - min (rbFree b).1 n) (rbFree b).2.dataLen).2)

/-- C9 counterexample: a 2-byte buffer holding 1 byte, written 2
bytes.  The first byte lands at offset 1, the flush resets the
buffer, the second portion lands at offset 0 — and write returns 0,
the last portion's address, not the first byte's. -/
theorem render_buf_write_returns_last_portion :
    (rbWrite 2 ⟨2, 1⟩ 2 0).1.head? = some 1 ∧
    (rbWrite 2 ⟨2, 1⟩ 2 0).2 = 0 ∧
    (0 : Nat) ≠ 1 := by decide

theorem rbWrite_zero (fuel : Nat) (b : RenderBuf) (o0 : Nat) :
    rbWrite fuel b 0 o0 = ([], o0) := by
  cases fuel with
  | zero => rfl
  | succ n => rw [rbWrite, if_pos rfl]

/-- When the bytes fit in the current free tail, write performs one
iteration: one portion at the old data end, which is also returned. -/
theorem rbWrite_no_flush (b : RenderBuf) (n o0 fuel : Nat)
    (hn : 0 < n) (hfree : b.dataLen < b.cap) (hfit : n ≤ b.cap - b.dataLen)
    (hfuel : 0 < fuel) :
    rbWrite fuel b n o0 = ([b.dataLen], b.dataLen) := by
  cases fuel with
  | zero => omega
  | succ f =>
    rw [rbWrite, if_neg (by omega)]
    have hfr : rbFree b = (b.cap - b.dataLen, b) := by
      unfold rbFree
      rw [if_neg (by omega)]
    rw [hfr]
    have hmin : min (b.cap - b.dataLen) n = n := by omega
    rw [hmin, Nat.sub_self, rbWrite_zero]

theorem rbWrite_origin_last :
    ∀ (fuel : Nat) (b : RenderBuf) (n o0 : Nat), 0 < n → n ≤ fuel → 0 < b.cap →
      b.dataLen ≤ b.cap →
      (rbWrite fuel b n o0).1.getLast? = some ((rbWrite fuel b n o0).2) := by
  intro fuel
  induction fuel with
  | zero => intro b n o0 hn hf; omega
  | succ f ih =>
    intro b n o0 hn hf hcap hdl
    rw [rbWrite, if_neg (by omega)]
    have hfree : 0 < (rbFree b).1 ∧ (rbFree b).2.cap = b.cap ∧
        (rbFree b).2.dataLen ≤ b.cap ∧
        (rbFree b).2.dataLen + (rbFree b).1 = b.cap := by
      unfold rbFree
      by_cases h : b.cap - b.dataLen = 0
      · rw [if_pos h]
        exact ⟨hcap, rfl, by show (0 : Nat) ≤ b.cap; omega,
          by show 0 + b.cap = b.cap; omega⟩
      · rw [if_neg h]
        exact ⟨by show 0 < b.cap - b.dataLen; omega, rfl, hdl,
          by show b.dataLen + (b.cap - b.dataLen) = b.cap; omega⟩
    by_cases hend : n - min (rbFree b).1 n = 0
    · rw [hend, rbWrite_zero]
      rfl
    · have hrec := ih
        { cap := b.cap, dataLen := (rbFree b).2.dataLen + min (rbFree b).1 n }
        (n - min (rbFree b).1 n) (rbFree b).2.dataLen
        (by omega) (by omega) hcap (by simp only; omega)
      cases hl : (rbWrite f
          { cap := b.cap, dataLen := (rbFree b).2.dataLen + min (rbFree b).1 n }
          (n - min (rbFree b).1 n) (rbFree b).2.dataLen).1 with
      | nil => rw [hl] at hrec; exact absurd hrec (by simp)
      | cons p ps =>
        rw [hl] at hrec
        show ((rbFree b).2.dataLen :: p :: ps).getLast? = some _
        rw [List.getLast?_cons_cons]
        exact hrec

/-- C9 amended: write returns the in-memory address of the first
byte only when the write fits in the current free space; in general
it returns the address at which the last portion was placed (origin
is reassigned each loop iteration). -/
theorem render_buf_write_origin (b : RenderBuf) (n o0 fuel : Nat)
    (hn : 0 < n) (hfuel : n ≤ fuel) (hcap : 0 < b.cap) (hdl : b.dataLen ≤ b.cap) :
    (rbWrite fuel b n o0).1.getLast? = some ((rbWrite fuel b n o0).2) ∧
    (b.dataLen < b.cap → n ≤ b.cap - b.dataLen →
      rbWrite fuel b n o0 = ([b.dataLen], b.dataLen)) :=
  ⟨rbWrite_origin_last fuel b n o0 hn hfuel hcap hdl,
    fun hfree hfit => rbWrite_no_flush b n o0 fuel hn hfree hfit (by omega)⟩

/-- Witness for the amended C9: 4 bytes into a buffer with 5 free. -/
theorem render_buf_write_origin_witness :
    ((0 : Nat) < 4 ∧ (4 : Nat) ≤ 9 ∧ (0 : Nat) < 8 ∧ (3 : Nat) ≤ 8) ∧
    ((rbWrite 9 ⟨8, 3⟩ 4 37).1.getLast? = some ((rbWrite 9 ⟨8, 3⟩ 4 37).2) ∧
      ((3 : Nat) < 8 → (4 : Nat) ≤ 8 - 3 →
        rbWrite 9 ⟨8, 3⟩ 4 37 = ([3], 3))) :=
  ⟨by decide,
    render_buf_write_origin ⟨8, 3⟩ 4 37 9 (by decide) (by decide) (by decide) (by decide)⟩

/-! ## parser::read_body -/

structure ParserState where
  bodyBytesLeft : Nat
  streamPos : Nat
  deriving DecidableEq, Repr

/-- parser::read_body on a chunk of a given size: the chunk is
clamped to min(size, body_bytes_left); a zero clamp returns false
immediately, else the clamped bytes are read and body_bytes_left
decreases.  (The short-read throw is not reached on a well-formed
stream.)  Returns (result, new state, bytes consumed). -/
def read_body (st : ParserState) (chunkSize : Nat) : Bool × ParserState × Nat :=
  if min chunkSize st.bodyBytesLeft = 0 then (false, st, 0)
  else (true,
    { bodyBytesLeft := st.bodyBytesLeft - min chunkSize st.bodyBytesLeft,
      streamPos := st.streamPos + min chunkSize st.bodyBytesLeft },
    min chunkSize st.bodyBytesLeft)

/-- C10: with a valid header and body bytes remaining, read_body on a
zero-sized chunk returns false, consumes nothing and leaves the state
unchanged — so a false return does not imply the record's body has
been fully consumed. -/
theorem read_body_zero_chunk (st : ParserState) (h : 0 < st.bodyBytesLeft) :
    (read_body st 0).1 = false ∧ (read_body st 0).2.1 = st ∧
    (read_body st 0).2.2 = 0 ∧ st.bodyBytesLeft ≠ 0 := by
  unfold read_body
  rw [if_pos (by omega)]
  exact ⟨rfl, rfl, rfl, by omega⟩

/-- Witness for C10 with 5 body bytes left. -/
theorem read_body_zero_chunk_witness :
    ((0 : Nat) < 5) ∧
    ((read_body ⟨5, 100⟩ 0).1 = false ∧ (read_body ⟨5, 100⟩ 0).2.1 = ⟨5, 100⟩ ∧
      (read_body ⟨5, 100⟩ 0).2.2 = 0 ∧ (5 : Nat) ≠ 0) :=
  ⟨by decide, read_body_zero_chunk ⟨5, 100⟩ (by decide)⟩

/-! ## Orchestrator commit protocol (main) -/

/-- A file identity: path plus the auto-unlink flag the destructor
consults. -/
structure FileId where
  path : String
  autoUnlink : Bool
  deriving DecidableEq, Repr

/-- main's control flow around the sort: create the destination
identity, set auto-unlink, run split_and_sort then merge_sorted
(either may throw, modelled as Except values), and clear the flag
only after both returned; the result is the identity state the
destructor observes when it drops. -/
def orchestrate (E : Type) (p1 p2 : Except E Unit) (dest : String) : FileId :=
  match p1 with
  | .error _ => { path := dest, autoUnlink := true }
  | .ok _ =>
    match p2 with
    | .error _ => { path := dest, autoUnlink := true }
    | .ok _ => { path := dest, autoUnlink := false }

/-- file_id::~file_id — the file survives the drop iff auto-unlink is
disabled. -/
def fileSurvivesDrop (f : FileId) : Bool := !f.autoUnlink

/-- C7: auto-unlink on the destination identity is enabled before the
phases and disabled only after both split_and_sort and merge_sorted
return normally; whenever either phase throws the flag is still set
at drop time, so the partial destination file is unlinked and no
destination survives a failed run. -/
theorem destination_removed_unless_both_phases_succeed (E : Type)
    (p1 p2 : Except E Unit) (dest : String) :
    ((orchestrate E p1 p2 dest).autoUnlink = false ↔ p1 = .ok () ∧ p2 = .ok ()) ∧
    (fileSurvivesDrop (orchestrate E p1 p2 dest) = true ↔ p1 = .ok () ∧ p2 = .ok ()) := by
  cases p1 with
  | error e => simp [orchestrate, fileSurvivesDrop]
  | ok u =>
    cases u
    cases p2 with
    | error e => simp [orchestrate, fileSurvivesDrop]
    | ok v =>
      cases v
      simp [orchestrate, fileSurvivesDrop]

end XxlSort
